import Mathlib

/-!
# Verification of the gasyori100knock-rs pixel-transform pipeline

Shallow embedding of `src/main.rs`: a selectable pixel-transform pipeline
(identity, RGB→BGR channel swap, grayscale, fixed-threshold binarize,
Otsu adaptive binarize, HSV hue invert) over in-memory byte buffers.

Modelling conventions:
- Rust `u8`/`usize` values become `ℕ` (the source never overflows `u8` data
  bytes; `usize` histogram arithmetic is modelled without wraparound).
- `assert!`/`assert_eq!`/`unreachable!`/`expect` (panics) become `Option`:
  a panic is `none`.
- The grayscale luma computation is modelled bit-exactly: every IEEE-754
  double intermediate is represented by its exact rational value and every
  operation is followed by rounding to 53 significant bits (round to
  nearest, ties to even), exactly as the hardware computes it.  The float
  literals `0.2126`, `0.7152`, `0.0722` are replaced by the exact dyadic
  rationals they denote.
- The HSV conversions and the Otsu score are modelled over exact rationals
  (idealised reals).  The claims about them are range, tolerance (±1) and
  branch-coverage properties with large margins, insensitive to the
  ~2⁻⁵⁰ relative rounding error of the doubles in the source.
-/

namespace Gasyori

/-- `png::ColorType` (the variants of the `png` crate). -/
inductive ColorType
  | Grayscale
  | Rgb
  | Indexed
  | GrayscaleAlpha
  | Rgba
deriving DecidableEq, Repr

/-- `png::BitDepth`. -/
inductive BitDepth
  | One
  | Two
  | Four
  | Eight
  | Sixteen
deriving DecidableEq, Repr

/-- `struct Info { width, height, color, depth }`. -/
structure Info where
  width : ℕ
  height : ℕ
  color : ColorType
  depth : BitDepth
deriving DecidableEq, Repr

/-- `struct Image { info, bytes }`. -/
structure Image where
  info : Info
  bytes : List ℕ
deriving DecidableEq, Repr

/-! ## q1: RGB → BGR channel swap -/

/-- The chunk loop of the q1 closure: `chunks(3)` with
`[r, g, b] => [b, g, r]` and `unreachable!()` (= `none`) on a short
trailing chunk. -/
def rgbToBgr : List ℕ → Option (List ℕ)
  | [] => some []
  | r :: g :: b :: rest => (rgbToBgr rest).map fun t => b :: g :: r :: t
  | _ => none

/-- The q1 closure: asserts the RGB color model and `len % 3 == 0`,
then swaps channels; the metadata `info` is reused unchanged. -/
def q1 (img : Image) : Option Image :=
  if img.info.color = ColorType.Rgb ∧ img.bytes.length % 3 = 0 then
    (rgbToBgr img.bytes).map fun out => ⟨img.info, out⟩
  else none

/-! ## Binarization -/

/-- The byte loop of `binarize`: `if value < threshold { 0 } else { 255 }`. -/
def binarizeBytes (bytes : List ℕ) (threshold : ℕ) : List ℕ :=
  bytes.map fun value => if value < threshold then 0 else 255

/-- `fn binarize(img, threshold)`: asserts the Grayscale color model,
then thresholds every byte. -/
def binarize (img : Image) (threshold : ℕ) : Option Image :=
  if img.info.color = ColorType.Grayscale then
    some ⟨img.info, binarizeBytes img.bytes threshold⟩
  else none

/-! ## IEEE-754 double model for the luma computation -/

/-- Fuel-based floor-log₂ (structural recursion, so that concrete
instances reduce inside the kernel; the fuel is the number itself, always
sufficient since `log₂ n < n` for `n ≥ 1`). -/
def log2Fuel : ℕ → ℕ → ℕ
  | 0, _ => 0
  | fuel + 1, n => if n < 2 then 0 else log2Fuel fuel (n / 2) + 1

/-- Floor of the base-2 logarithm (0 for 0). -/
def natLog2 (n : ℕ) : ℕ := log2Fuel n n

/-- Round the dyadic rational `m / 2^s` (a nonnegative double-precision
intermediate, given as mantissa `m` and shift `s`) to 53 significant
binary digits, round to nearest with ties to even — exactly the IEEE-754
double rounding performed by the hardware.  The result is again a
mantissa/shift pair denoting `q / 2^(s - drop)`.  (Representation
independent: `(m, s)` and `(2*m, s+1)` round to the same value.) -/
def rnd53 (m : ℕ) (s : ℕ) : ℕ × ℕ :=
  if m = 0 then (0, s)
  else
    let drop := natLog2 m - 52
    if drop = 0 then (m, s)
    else
      let q := m / 2 ^ drop
      let r := m % 2 ^ drop
      let half := 2 ^ (drop - 1)
      let rounded := if half < r then q + 1 else if r < half then q else
        if q % 2 = 0 then q else q + 1
      (rounded, s - drop)

/-- Exact sum of two dyadic rationals `p.1 / 2^p.2`, re-expressed over the
common shift `max p₁.2 p₂.2` (the truncated subtraction in the wrong
direction is 0, so exactly one factor is scaled). -/
def dyadicAdd (p₁ p₂ : ℕ × ℕ) : ℕ × ℕ :=
  (p₁.1 * 2 ^ (p₂.2 - p₁.2) + p₂.1 * 2 ^ (p₁.2 - p₂.2), max p₁.2 p₂.2)

/-- One pixel of `to_grayscale`:
`(0.2126 * *r as f64 + 0.7152 * *g as f64 + 0.0722 * *b as f64) as u8`,
modelled bit-exactly: the double literals `0.2126`, `0.7152`, `0.0722`
denote the dyadic rationals `1914930561557935/2^53`,
`6441948906990757/2^53`, `5202558289538397/2^56`; each product with the
(exactly converted) integer channel and each partial sum (evaluated left
to right) is rounded to double precision by `rnd53`; the final `as u8`
cast truncates toward zero (= floor, the value is nonnegative) and
saturates at 255. -/
def lumaF64 (r g b : ℕ) : ℕ :=
  let p1 := rnd53 (1914930561557935 * r) 53
  let p2 := rnd53 (6441948906990757 * g) 53
  let p3 := rnd53 (5202558289538397 * b) 56
  let s12 := dyadicAdd p1 p2
  let s12r := rnd53 s12.1 s12.2
  let tot := dyadicAdd s12r p3
  let totr := rnd53 tot.1 tot.2
  min (totr.1 / 2 ^ totr.2) 255

/-- The chunk loop of `to_grayscale`: `chunks(3)` + `filter_map`,
where a short trailing chunk is silently dropped (`None` arm). -/
def grayBytes : List ℕ → List ℕ
  | r :: g :: b :: rest => lumaF64 r g b :: grayBytes rest
  | _ => []

/-- `fn to_grayscale(img)`: asserts the RGB color model and
`len % 3 == 0`, maps every pixel to its luma byte, and replaces the
metadata's color model by Grayscale. -/
def to_grayscale (img : Image) : Option Image :=
  if img.info.color = ColorType.Rgb ∧ img.bytes.length % 3 = 0 then
    some ⟨{ img.info with color := ColorType.Grayscale }, grayBytes img.bytes⟩
  else none

/-! ## q4: Otsu's method -/

/-- `fn diff(a, b)`: absolute difference via comparison and subtraction. -/
def diff (a b : ℕ) : ℕ := if a > b then a - b else b - a

/-- `histo[0..n].into_iter().sum()`. -/
def sumL (histo : List ℕ) (n : ℕ) : ℕ := (histo.take n).sum

/-- `histo[n..].into_iter().sum()`. -/
def sumR (histo : List ℕ) (n : ℕ) : ℕ := (histo.drop n).sum

/-- `histo[0..n].into_iter().zip(0..n).map(|(x, y)| x * y).sum()`. -/
def mulsumL (histo : List ℕ) (n : ℕ) : ℕ :=
  (((histo.take n).zip (List.range n)).map fun p => p.1 * p.2).sum

/-- `histo[n..255].into_iter().zip(n..255).map(|(x, y)| x * y).sum()`
(the slice `histo[n..255]` is "take 255 then drop n"). -/
def mulsumR (histo : List ℕ) (n : ℕ) : ℕ :=
  ((((histo.take 255).drop n).zip (List.range' n (255 - n))).map fun p => p.1 * p.2).sum

/-- The body of the q4 candidate map: for a split `n`, `Some((n, score))`
when `sum_l * sum_r != 0`, else `None`.  The `f64` score
`(diff(..) as f64).powi(2) / summul as f64` is modelled over `ℚ`. -/
def otsuScore (histo : List ℕ) (n : ℕ) : Option (ℕ × ℚ) :=
  let summul := sumL histo n * sumR histo n
  if summul ≠ 0 then
    some (n, ((diff (sumL histo n * mulsumR histo n) (sumR histo n * mulsumL histo n) : ℚ)) ^ 2
      / (summul : ℚ))
  else none

/-- `(0..=255).map(..).filter(Option::is_some).flatten()`. -/
def otsuCandidates (histo : List ℕ) : List (ℕ × ℚ) :=
  (List.range 256).filterMap (otsuScore histo)

/-- One step of `Iterator::max_by` (`core::cmp::max_by`): keep the
accumulator only when it compares strictly greater; on a tie the NEW
element replaces it (Rust's documented "last maximal element wins"). -/
def maxStep (acc : Option (ℕ × ℚ)) (p : ℕ × ℚ) : Option (ℕ × ℚ) :=
  match acc with
  | none => some p
  | some q => if q.2 > p.2 then some q else some p

/-- `.max_by(|(_, v1), (_, v2)| v1.partial_cmp(v2).expect(..))`:
`none` on the empty candidate list (the `expect("Failed to find threshold")`
panic). Scores are nonnegative rationals, so the NaN panic cannot fire. -/
def maxByScore (l : List (ℕ × ℚ)) : Option (ℕ × ℚ) := l.foldl maxStep none

/-- The whole threshold search of the q4 closure, from a histogram. -/
def otsuThreshold (histo : List ℕ) : Option ℕ :=
  (maxByScore (otsuCandidates histo)).map Prod.fst

/-- The histogram loop of q4: 256 bins, `bins[*i as usize] += 1` per byte. -/
def buildHistogram (bytes : List ℕ) : List ℕ :=
  (List.range 256).map fun i => bytes.count i

/-! ## HSV conversions -/

/-- `struct HSV { h, s, v }` (doubles modelled over `ℚ`). -/
structure HSV where
  h : ℚ
  s : ℚ
  v : ℚ
deriving DecidableEq, Repr

/-- Rust's `%` on doubles for a nonnegative dividend and positive divisor
(the only case arising here): `a - b * ⌊a / b⌋`. -/
def fmod (a b : ℚ) : ℚ := a - b * ⌊a / b⌋

/-- A normalised channel `x as f64 / 255.` of `HSV::from_rgb`. -/
def chan (x : ℕ) : ℚ := (x : ℚ) / 255

/-- `colors.iter().max_by(..)`: the largest normalised channel. -/
def vMax (r g b : ℕ) : ℚ := max (chan r) (max (chan g) (chan b))

/-- `colors.iter().min_by(..)`: the smallest normalised channel. -/
def vMin (r g b : ℕ) : ℚ := min (chan r) (min (chan g) (chan b))

/-- `HSV::from_rgb`: normalise to `[0,1]`, `v = max`, `s = v - min`, hue by
first matching minimum channel; the trailing `unreachable!()` and the three
range `assert!`s are modelled as `none`. -/
def fromRgb (r g b : ℕ) : Option HSV :=
  let v : ℚ := vMax r g b
  let vmin : ℚ := vMin r g b
  let s : ℚ := v - vmin
  let hOpt : Option ℚ :=
    if s = 0 then some 0
    else if chan b = vmin then some (60 * ((chan g - chan r) / s) + 60)
    else if chan r = vmin then some (60 * ((chan b - chan g) / s) + 180)
    else if chan g = vmin then some (60 * ((chan r - chan b) / s) + 300)
    else none
  hOpt.bind fun h =>
    if 0 ≤ h ∧ h < 360 ∧ 0 ≤ s ∧ s ≤ 1 ∧ 0 ≤ v ∧ v ≤ 1 then some ⟨h, s, v⟩ else none

/-- `Option`-valued map over a list (sequencing the per-element panics). -/
def mapOpt (f : α → Option β) : List α → Option (List β)
  | [] => some []
  | a :: rest => (f a).bind fun b => (mapOpt f rest).map fun bs => b :: bs

/-- `HSV::into_rgb`: sector selection on `h' = h / 60` (the `unreachable!`
arm is `none`), then each channel is shifted by `v - s`, range-asserted
into `[0,1]` (`none` on violation), scaled by 255 and truncated. -/
def intoRgb (c : HSV) : Option (List ℕ) :=
  let s := c.s
  let hp := c.h / 60
  let x := s * (1 - |fmod hp 2 - 1|)
  let z : ℚ := 0
  let rgbFloat : Option (List ℚ) :=
    if hp < 1 then some [s, x, z]
    else if hp < 2 then some [x, s, z]
    else if hp < 3 then some [z, s, x]
    else if hp < 4 then some [z, x, s]
    else if hp < 5 then some [x, z, s]
    else if hp < 6 then some [s, z, x]
    else none
  rgbFloat.bind (mapOpt fun val =>
    let modded := val + (c.v - s)
    if 0 ≤ modded ∧ modded ≤ 1 then some (⌊modded * 255⌋.toNat) else none)

/-- The chunk loop of `rgb_to_hsv`: `chunks(3)` with `unreachable!()`
(= `none`) on a short trailing chunk. -/
def rgbToHsvChunks : List ℕ → Option (List HSV)
  | [] => some []
  | r :: g :: b :: rest =>
    (fromRgb r g b).bind fun c => (rgbToHsvChunks rest).map fun cs => c :: cs
  | _ => none

/-- `fn rgb_to_hsv(rgb_bytes)`: asserts `len % 3 == 0`, then converts
each pixel triple. -/
def rgbToHsv (bytes : List ℕ) : Option (List HSV) :=
  if bytes.length % 3 = 0 then rgbToHsvChunks bytes else none

/-- `fn hsv_to_rgb(hsvs)`: per-sample `into_rgb`, flattened. -/
def hsvToRgb (hsvs : List HSV) : Option (List ℕ) :=
  (mapOpt intoRgb hsvs).map List.flatten

/-! ## The transform catalog (`funcs`) -/

/-- Index 0: the identity closure. -/
def q0 (img : Image) : Option Image := some img

/-- Index 3: grayscale then `binarize(img, 128)`. -/
def q3 (img : Image) : Option Image :=
  (to_grayscale img).bind fun gray => binarize gray 128

/-- Index 4: Otsu — grayscale, histogram, threshold search
(`expect` = `none`), then `binarize(gray, best_thres as u8)`. -/
def q4 (img : Image) : Option Image :=
  (to_grayscale img).bind fun gray =>
    (otsuThreshold (buildHistogram gray.bytes)).bind fun best =>
      binarize gray (best % 256)

/-- Index 5: hue invert — `rgb_to_hsv`, `h := (h + 180.) % 360.` on every
sample, `hsv_to_rgb`; the metadata `info` is reused unchanged. -/
def q5 (img : Image) : Option Image :=
  (rgbToHsv img.bytes).bind fun hsvs =>
    (hsvToRgb (hsvs.map fun c => { c with h := fmod (c.h + 180) 360 })).map
      fun bytes => ⟨img.info, bytes⟩

/-- The fixed transform catalog `funcs` of `main`. -/
def funcs : List (Image → Option Image) := [q0, q1, to_grayscale, q3, q4, q5]

/-! ## Auxiliary definitions for the verification -/

/-- Induction along the 3-chunk structure used by `chunks(3)` loops. -/
def tripleInduction {α : Type} {P : List α → Prop}
    (h0 : P []) (h1 : ∀ a, P [a]) (h2 : ∀ a b, P [a, b])
    (h3 : ∀ a b c rest, P rest → P (a :: b :: c :: rest)) : ∀ l, P l
  | [] => h0
  | [a] => h1 a
  | [a, b] => h2 a b
  | a :: b :: c :: rest => h3 a b c rest (tripleInduction h0 h1 h2 h3 rest)

/-- A histogram with one pixel at intensity 0 and one at intensity 2:
the splits `n = 1` and `n = 2` both separate the two pixels and attain
the same inter-class score. -/
def tieHisto : List ℕ := [1, 0, 1] ++ List.replicate 253 0

/-- A histogram whose entire mass (`c` pixels) lies in the single bin `k`
(`c = 0` gives the histogram of an empty image). -/
def singleBinHisto (k c : ℕ) : List ℕ :=
  (List.range 256).map fun i => if i = k then c else 0

/-! ## Helper lemmas -/

lemma rgbToBgr_ok :
    ∀ l : List ℕ, l.length % 3 = 0 →
      ∃ out, rgbToBgr l = some out ∧ out.length = l.length ∧ rgbToBgr out = some l := by
  refine tripleInduction ?_ ?_ ?_ ?_
  · exact fun _ => ⟨[], rfl, rfl, rfl⟩
  · intro a h; simp at h
  · intro a b h; simp at h
  · intro a b c rest ih h
    have hrest : rest.length % 3 = 0 := by
      simp only [List.length_cons] at h; omega
    obtain ⟨out, h1, h2, h3⟩ := ih hrest
    exact ⟨c :: b :: a :: out, by simp [rgbToBgr, h1], by simp [h2],
      by simp [rgbToBgr, h3]⟩

/-- C4: for every RGB byte buffer whose length is a multiple of 3,
`rgbToBgr` emits `(b,g,r)` for each input triple `(r,g,b)`, preserves the
buffer length, applying it twice returns the original buffer, and the q1
transform reuses the metadata (hence the color model) unchanged. -/
theorem c4_rgbToBgr_involution (l : List ℕ) (hlen : l.length % 3 = 0) :
    (∀ r g b rest t, rgbToBgr rest = some t →
      rgbToBgr (r :: g :: b :: rest) = some (b :: g :: r :: t)) ∧
    ∃ out, rgbToBgr l = some out ∧ out.length = l.length ∧ rgbToBgr out = some l ∧
      ∀ info : Info, info.color = ColorType.Rgb → q1 ⟨info, l⟩ = some ⟨info, out⟩ := by
  refine ⟨fun r g b rest t ht => by simp [rgbToBgr, ht], ?_⟩
  obtain ⟨out, h1, h2, h3⟩ := rgbToBgr_ok l hlen
  refine ⟨out, h1, h2, h3, fun info hc => ?_⟩
  simp [q1, hc, hlen, h1]

/-- Witness for C4 at a concrete 2-pixel buffer. -/
theorem c4_witness :
    ∃ out, rgbToBgr [10, 20, 30, 200, 100, 50] = some out ∧
      out.length = ([10, 20, 30, 200, 100, 50] : List ℕ).length ∧
      rgbToBgr out = some [10, 20, 30, 200, 100, 50] := by
  obtain ⟨out, h1, h2, h3, _⟩ := (c4_rgbToBgr_involution [10, 20, 30, 200, 100, 50] (by decide)).2
  exact ⟨out, h1, h2, h3⟩

/-- C5 counterexample: the claim also asserts idempotence at every LOWER
threshold `t' ≤ t`; at `t' = 0` a 0-byte produced by the first pass is
re-mapped to 255 (`0 < 0` is false), so re-binarizing the binarized buffer
`[0]` (threshold 1) at threshold 0 changes it. -/
theorem c5_counterexample :
    (0 : ℕ) ≤ 1 ∧ binarizeBytes (binarizeBytes [0] 1) 0 ≠ binarizeBytes [0] 1 := by decide

/-- C5 (amended): binarizing produces only values in `{0, 255}` and is
idempotent at the same threshold, and at any lower NONZERO threshold
`1 ≤ u ≤ t`; re-binarizing at threshold 0 is not the identity on
binarized buffers containing 0. -/
theorem c5_binarize_idempotent (l : List ℕ) (t : ℕ) (ht : t ≤ 255) :
    (∀ v ∈ binarizeBytes l t, v = 0 ∨ v = 255) ∧
    binarizeBytes (binarizeBytes l t) t = binarizeBytes l t ∧
    ∀ u, 1 ≤ u → u ≤ t → binarizeBytes (binarizeBytes l t) u = binarizeBytes l t := by
  refine ⟨?_, ?_, ?_⟩
  · intro v hv
    simp only [binarizeBytes, List.mem_map] at hv
    obtain ⟨w, -, hw⟩ := hv
    split_ifs at hw <;> omega
  · simp only [binarizeBytes, List.map_map]
    refine List.map_congr_left fun v _ => ?_
    simp only [Function.comp]
    split_ifs <;> omega
  · intro u hu hut
    simp only [binarizeBytes, List.map_map]
    refine List.map_congr_left fun v _ => ?_
    simp only [Function.comp]
    split_ifs <;> omega

/-- Witness for C5 (amended) at a concrete buffer and thresholds. -/
theorem c5_witness :
    binarizeBytes (binarizeBytes [0, 77, 200] 100) 100 = binarizeBytes [0, 77, 200] 100 ∧
    binarizeBytes (binarizeBytes [0, 77, 200] 100) 1 = binarizeBytes [0, 77, 200] 100 := by
  obtain ⟨-, h2, h3⟩ := c5_binarize_idempotent [0, 77, 200] 100 (by decide)
  exact ⟨h2, h3 1 (by decide) (by decide)⟩

/-- C10: `binarize` at threshold 0 maps every byte, including 0, to 255
(`value < 0` is never true on `u8`), so a nonempty all-zero buffer is not
a fixed point of binarization at threshold 0. -/
theorem c10_binarize_zero_threshold :
    (∀ l : List ℕ, binarizeBytes l 0 = l.map fun _ => 255) ∧
    binarizeBytes [0, 0, 0] 0 = [255, 255, 255] ∧
    binarizeBytes [0, 0, 0] 0 ≠ [0, 0, 0] := by
  refine ⟨fun l => ?_, by decide, by decide⟩
  simp [binarizeBytes]

/-- C6 counterexample: the Hue Invert transform (index 5) does NOT assert
the RGB color model — `rgb_to_hsv` only asserts `len % 3 == 0` — so it
silently processes a 3-byte Grayscale image instead of failing. -/
theorem c6_counterexample :
    (⟨⟨3, 1, ColorType.Grayscale, BitDepth.Eight⟩, [0, 0, 0]⟩ : Image).info.color ≠
      ColorType.Rgb ∧
    (q5 ⟨⟨3, 1, ColorType.Grayscale, BitDepth.Eight⟩, [0, 0, 0]⟩).isSome = true := by
  have hA : fromRgb 0 0 0 = some ⟨0, 0, 0⟩ := by
    norm_num [fromRgb, chan, vMax, vMin]
  have hfl : (⌊(180 : ℚ) / 360⌋ : ℤ) = 0 := by
    rw [Int.floor_eq_zero_iff]
    constructor <;> norm_num
  have hB : fmod (180 : ℚ) 360 = 180 := by
    rw [fmod, hfl]
    norm_num
  have hC : intoRgb ⟨180, 0, 0⟩ = some [0, 0, 0] := by
    norm_num [intoRgb, mapOpt]
  refine ⟨by decide, ?_⟩
  simp [q5, rgbToHsv, rgbToHsvChunks, hA, hB, hsvToRgb, mapOpt, hC]

/-- C6 (amended): Channel Swap, Grayscale and both Binarize variants
assert the RGB color model before executing and fail (panic, modelled as
`none`) on any other color model; Hue Invert never inspects the color
model — its output bytes depend on the input bytes alone. -/
theorem c6_color_model_asserts (img : Image) (hc : img.info.color ≠ ColorType.Rgb) :
    q1 img = none ∧ to_grayscale img = none ∧ q3 img = none ∧ q4 img = none ∧
    ∀ info : Info, (q5 img).map Image.bytes = (q5 ⟨info, img.bytes⟩).map Image.bytes := by
  have hgray : to_grayscale img = none := by
    simp [to_grayscale, hc]
  refine ⟨by simp [q1, hc], hgray, by simp [q3, hgray], by simp [q4, hgray], fun info => ?_⟩
  cases h1 : rgbToHsv img.bytes with
  | none => simp [q5, h1]
  | some hsvs =>
    cases h2 : hsvToRgb (hsvs.map fun c => { c with h := fmod (c.h + 180) 360 }) with
    | none => simp [q5, h1, h2]
    | some outBytes => simp [q5, h1, h2]

/-- Witness for C6 (amended) at a concrete Grayscale image. -/
theorem c6_witness :
    q1 ⟨⟨1, 1, ColorType.Grayscale, BitDepth.Eight⟩, [5]⟩ = none ∧
    to_grayscale ⟨⟨1, 1, ColorType.Grayscale, BitDepth.Eight⟩, [5]⟩ = none ∧
    q3 ⟨⟨1, 1, ColorType.Grayscale, BitDepth.Eight⟩, [5]⟩ = none ∧
    q4 ⟨⟨1, 1, ColorType.Grayscale, BitDepth.Eight⟩, [5]⟩ = none := by
  obtain ⟨h1, h2, h3, h4, -⟩ :=
    c6_color_model_asserts ⟨⟨1, 1, ColorType.Grayscale, BitDepth.Eight⟩, [5]⟩ (by decide)
  exact ⟨h1, h2, h3, h4⟩

lemma grayBytes_length :
    ∀ l : List ℕ, l.length % 3 = 0 → (grayBytes l).length = l.length / 3 := by
  refine tripleInduction ?_ ?_ ?_ ?_
  · intro; rfl
  · intro a h; simp at h
  · intro a b h; simp at h
  · intro a b c rest ih h
    have hrest : rest.length % 3 = 0 := by
      simp only [List.length_cons] at h; omega
    have := ih hrest
    simp only [grayBytes, List.length_cons, this]
    omega

/-- C9 counterexample: on the 1-pixel white RGB image the grayscale
transform outputs the byte 254, not 255 — the IEEE double evaluation of
`0.2126*255 + 0.7152*255 + 0.0722*255` is 254.99999999999997, and the
`as u8` cast truncates toward zero. -/
theorem c9_counterexample :
    to_grayscale ⟨⟨1, 1, ColorType.Rgb, BitDepth.Eight⟩, [255, 255, 255]⟩ =
      some ⟨⟨1, 1, ColorType.Grayscale, BitDepth.Eight⟩, [254]⟩ ∧
    lumaF64 255 255 255 = 254 ∧ (254 : ℕ) ≠ 255 := by
  refine ⟨?_, by decide, by decide⟩
  have h : grayBytes [255, 255, 255] = [254] := by decide
  simp [to_grayscale, h]

/-- C9 (amended): the grayscale transform (catalog index 2) on the
1-pixel white RGB image produces the single byte 254 (the double sum
truncates just below 255) and sets the color model to Grayscale; in
general each output byte is the double-precision evaluation of
`0.2126*r + 0.7152*g + 0.0722*b` truncated to `u8`, and the output
length is one third of the input length. -/
theorem c9_grayscale_transform (img : Image) (hc : img.info.color = ColorType.Rgb)
    (hlen : img.bytes.length % 3 = 0) :
    to_grayscale img =
      some ⟨{ img.info with color := ColorType.Grayscale }, grayBytes img.bytes⟩ ∧
    (grayBytes img.bytes).length = img.bytes.length / 3 ∧
    (∀ r g b rest, grayBytes (r :: g :: b :: rest) = lumaF64 r g b :: grayBytes rest) ∧
    funcs.get? 2 = some to_grayscale ∧
    to_grayscale ⟨⟨1, 1, ColorType.Rgb, BitDepth.Eight⟩, [255, 255, 255]⟩ =
      some ⟨⟨1, 1, ColorType.Grayscale, BitDepth.Eight⟩, [254]⟩ := by
  refine ⟨by simp [to_grayscale, hc, hlen], grayBytes_length img.bytes hlen,
    fun r g b rest => rfl, rfl, ?_⟩
  have h : grayBytes [255, 255, 255] = [254] := by decide
  simp [to_grayscale, h]

/-- Witness for C9 (amended) at the 1-pixel white image. -/
theorem c9_witness :
    to_grayscale ⟨⟨1, 1, ColorType.Rgb, BitDepth.Eight⟩, [255, 255, 255]⟩ =
      some ⟨⟨1, 1, ColorType.Grayscale, BitDepth.Eight⟩,
        grayBytes [255, 255, 255]⟩ ∧
    (grayBytes [255, 255, 255]).length = ([255, 255, 255] : List ℕ).length / 3 := by
  obtain ⟨h1, h2, -, -, -⟩ :=
    c9_grayscale_transform ⟨⟨1, 1, ColorType.Rgb, BitDepth.Eight⟩, [255, 255, 255]⟩
      rfl (by decide)
  exact ⟨h1, h2⟩

/-! ## Otsu helper lemmas -/

lemma sum_map_range_indicator (k c : ℕ) :
    ∀ n, ((List.range n).map fun i => if i = k then c else 0).sum = if k < n then c else 0 := by
  intro n
  induction n with
  | zero => simp
  | succ n ih =>
    rw [List.range_succ, List.map_append, List.sum_append, ih]
    simp only [List.map_cons, List.map_nil, List.sum_cons, List.sum_nil]
    split_ifs <;> omega

lemma singleBin_sumL (k c n : ℕ) (hn : n ≤ 256) :
    sumL (singleBinHisto k c) n = if k < n then c else 0 := by
  rw [sumL, singleBinHisto, ← List.map_take, List.take_range,
    Nat.min_eq_left hn, sum_map_range_indicator]

lemma singleBin_total (k c : ℕ) :
    (singleBinHisto k c).sum = if k < 256 then c else 0 := by
  rw [singleBinHisto, sum_map_range_indicator]

lemma singleBin_summul (k c n : ℕ) (hn : n < 256) :
    sumL (singleBinHisto k c) n * sumR (singleBinHisto k c) n = 0 := by
  have h2 : sumL (singleBinHisto k c) n + sumR (singleBinHisto k c) n =
      (singleBinHisto k c).sum := List.sum_take_add_sum_drop _ _
  rcases Nat.lt_or_ge k n with hk | hk
  · have hL : sumL (singleBinHisto k c) n = c := by
      rw [singleBin_sumL k c n hn.le, if_pos hk]
    have hT : (singleBinHisto k c).sum = c := by
      rw [singleBin_total, if_pos (hk.trans hn)]
    have hR : sumR (singleBinHisto k c) n = 0 := by omega
    rw [hR, Nat.mul_zero]
  · have hL : sumL (singleBinHisto k c) n = 0 := by
      rw [singleBin_sumL k c n hn.le, if_neg (Nat.not_lt.mpr hk)]
    rw [hL, Nat.zero_mul]

lemma singleBin_candidates_nil (k c : ℕ) : otsuCandidates (singleBinHisto k c) = [] := by
  refine List.filterMap_eq_nil_iff.mpr fun n hn => ?_
  have := singleBin_summul k c n (List.mem_range.mp hn)
  simp [otsuScore, this]

lemma singleBin_threshold_none (k c : ℕ) : otsuThreshold (singleBinHisto k c) = none := by
  rw [otsuThreshold, maxByScore, singleBin_candidates_nil]
  rfl

/-- C3: on a histogram whose entire mass lies in one bin (and on the
histogram of an empty image) every split `n` in `0..=255` is degenerate
(`sum_l * sum_r == 0`), so the candidate list is empty and the threshold
search reports failure (`none`, the `expect("Failed to find threshold")`
panic) instead of returning a default threshold. -/
theorem c3_otsu_single_bin (k c : ℕ) :
    (∀ n < 256, otsuScore (singleBinHisto k c) n = none) ∧
    otsuCandidates (singleBinHisto k c) = [] ∧
    otsuThreshold (singleBinHisto k c) = none ∧
    otsuThreshold (buildHistogram []) = none := by
  have hempty : buildHistogram [] = singleBinHisto 0 0 := by
    rw [buildHistogram, singleBinHisto]
    exact List.map_congr_left fun i _ => by simp
  refine ⟨fun n hn => ?_, singleBin_candidates_nil k c, singleBin_threshold_none k c, ?_⟩
  · have := singleBin_summul k c n hn
    simp [otsuScore, this]
  · rw [hempty]
    exact singleBin_threshold_none 0 0

/-- Witness for C3 at bin 37 with 5 pixels. -/
theorem c3_witness :
    otsuScore (singleBinHisto 37 5) 100 = none ∧
    otsuThreshold (singleBinHisto 37 5) = none := by
  obtain ⟨h1, -, h2, -⟩ := c3_otsu_single_bin 37 5
  exact ⟨h1 100 (by norm_num), h2⟩

lemma take_sum_getD (l : List ℕ) :
    ∀ n, n ≤ l.length → (l.take n).sum = ∑ i ∈ Finset.range n, l.getD i 0 := by
  intro n
  induction n with
  | zero => intro; simp
  | succ n ih =>
    intro h
    have hn : n < l.length := h
    rw [List.take_succ, List.sum_append, ih hn.le, Finset.sum_range_succ]
    congr 1
    simp [List.getD_eq_getElem?_getD, List.getElem?_eq_getElem hn]

lemma zip_range_mulsum (l : List ℕ) :
    ∀ n, n ≤ l.length →
      (((l.take n).zip (List.range n)).map fun p => p.1 * p.2).sum =
        ∑ i ∈ Finset.range n, l.getD i 0 * i := by
  intro n
  induction n with
  | zero => intro; simp
  | succ n ih =>
    intro h
    have hn : n < l.length := h
    rw [List.take_succ, List.range_succ, List.getElem?_eq_getElem hn,
      List.zip_append (by simp [List.length_take]; omega), List.map_append, List.sum_append,
      ih hn.le, Finset.sum_range_succ]
    simp [List.getD_eq_getElem?_getD, List.getElem?_eq_getElem hn]

lemma drop_zip_mulsum (l : List ℕ) :
    ∀ m a, a + m ≤ l.length →
      (((l.drop a).zip (List.range' a m)).map fun p => p.1 * p.2).sum =
        ∑ i ∈ Finset.Ico a (a + m), l.getD i 0 * i := by
  intro m
  induction m with
  | zero => intro a h; simp
  | succ m ih =>
    intro a h
    have ha : a < l.length := by omega
    rw [List.drop_eq_getElem_cons ha, List.range'_succ, List.zip_cons_cons, List.map_cons,
      List.sum_cons, ih (a + 1) (by omega),
      Finset.sum_eq_sum_Ico_succ_bot (by omega : a < a + (m + 1))]
    have hrw : a + 1 + m = a + (m + 1) := by omega
    rw [hrw]
    congr 1
    simp [List.getD_eq_getElem?_getD, List.getElem?_eq_getElem ha]

lemma diff_cast_abs (a b : ℕ) : ((diff a b : ℕ) : ℚ) = |(a : ℚ) - (b : ℚ)| := by
  rw [diff]
  split_ifs with h
  · rw [Nat.cast_sub h.le,
      abs_of_nonneg (sub_nonneg.mpr (Nat.cast_le.mpr h.le))]
  · have hba : a ≤ b := Nat.le_of_not_lt h
    rw [Nat.cast_sub hba, abs_sub_comm,
      abs_of_nonneg (sub_nonneg.mpr (Nat.cast_le.mpr hba))]

/-- C1: for every 256-bin histogram and every split `n < 256`, `sum_l`
sums the bins `[0,n)`, `sum_r` the bins `[n,256)`, `mulsum_l` weights the
bins below `n`, `mulsum_r` weights the bins `[n,255)` (bin 255 excluded
by the `n..255` range); a split with `sum_l*sum_r = 0` is skipped
(`none`), and otherwise the score is
`|sum_l*mulsum_r - sum_r*mulsum_l|² / (sum_l*sum_r)`. -/
theorem c1_otsu_engine (histo : List ℕ) (hlen : histo.length = 256) (n : ℕ) (hn : n < 256) :
    sumL histo n = ∑ i ∈ Finset.range n, histo.getD i 0 ∧
    sumR histo n = ∑ i ∈ Finset.Ico n 256, histo.getD i 0 ∧
    mulsumL histo n = ∑ i ∈ Finset.range n, histo.getD i 0 * i ∧
    mulsumR histo n = ∑ i ∈ Finset.Ico n 255, histo.getD i 0 * i ∧
    (sumL histo n * sumR histo n ≠ 0 →
      otsuScore histo n = some (n,
        (|(↑(sumL histo n * mulsumR histo n) : ℚ) - ↑(sumR histo n * mulsumL histo n)| ^ 2) /
          ((sumL histo n : ℚ) * (sumR histo n : ℚ)))) ∧
    (sumL histo n * sumR histo n = 0 → otsuScore histo n = none) := by
  have hsumL : sumL histo n = ∑ i ∈ Finset.range n, histo.getD i 0 :=
    take_sum_getD histo n (by omega)
  have htot : histo.sum = ∑ i ∈ Finset.range 256, histo.getD i 0 := by
    have := take_sum_getD histo 256 (by omega)
    rwa [show histo.take 256 = histo by rw [← hlen, List.take_length]] at this
  have hsplit : ∑ i ∈ Finset.range 256, histo.getD i 0 =
      ∑ i ∈ Finset.range n, histo.getD i 0 + ∑ i ∈ Finset.Ico n 256, histo.getD i 0 := by
    rw [Finset.range_eq_Ico]
    exact (Finset.sum_Ico_consecutive _ (Nat.zero_le n) (by omega : n ≤ 256)).symm
  have hsumR : sumR histo n = ∑ i ∈ Finset.Ico n 256, histo.getD i 0 := by
    have h2 : sumL histo n + sumR histo n = histo.sum := List.sum_take_add_sum_drop _ _
    omega
  have hmulL : mulsumL histo n = ∑ i ∈ Finset.range n, histo.getD i 0 * i :=
    zip_range_mulsum histo n (by omega)
  have hmulR : mulsumR histo n = ∑ i ∈ Finset.Ico n 255, histo.getD i 0 * i := by
    have hlen' : (histo.take 255).length = 255 := by
      rw [List.length_take, hlen]
      omega
    have := drop_zip_mulsum (histo.take 255) (255 - n) n (by omega)
    rw [show n + (255 - n) = 255 by omega] at this
    rw [mulsumR, this]
    refine Finset.sum_congr rfl fun i hi => ?_
    have hi' : i < 255 := (Finset.mem_Ico.mp hi).2
    rw [List.getD_eq_getElem?_getD, List.getD_eq_getElem?_getD, List.getElem?_take,
      if_pos hi']
  refine ⟨hsumL, hsumR, hmulL, hmulR, fun h => ?_, fun h => by simp [otsuScore, h]⟩
  simp only [otsuScore, ne_eq, h, not_false_iff, if_pos, ite_true, if_neg]
  rw [diff_cast_abs, Nat.cast_mul (sumL histo n) (sumR histo n)]

lemma tieHisto_length : tieHisto.length = 256 := by
  rw [tieHisto, List.length_append, List.length_replicate]
  rfl

/-- Witness for C1 on the two-pixel histogram `tieHisto` at `n = 1`
(valid split) and `n = 0` (degenerate split). -/
theorem c1_witness :
    sumL tieHisto 1 = ∑ i ∈ Finset.range 1, tieHisto.getD i 0 ∧
    mulsumR tieHisto 1 = ∑ i ∈ Finset.Ico 1 255, tieHisto.getD i 0 * i ∧
    otsuScore tieHisto 0 = none := by
  obtain ⟨ha, -, -, hd, -, -⟩ := c1_otsu_engine tieHisto tieHisto_length 1 (by norm_num)
  obtain ⟨-, -, -, -, -, hf⟩ := c1_otsu_engine tieHisto tieHisto_length 0 (by norm_num)
  refine ⟨ha, hd, hf ?_⟩
  simp [sumL]

/-! ## The threshold scan: last maximal candidate wins -/

lemma filterMap_range_none {β : Type} {f : ℕ → Option β} {m : ℕ}
    (h : ∀ n < m, f n = none) : (List.range m).filterMap f = [] :=
  List.filterMap_eq_nil_iff.mpr fun a ha => h a (List.mem_range.mp ha)

lemma filterMap_range_one {β : Type} {f : ℕ → Option β} {i : ℕ} {pi : β} :
    ∀ {m : ℕ}, i < m → f i = some pi → (∀ n < m, n ≠ i → f n = none) →
      (List.range m).filterMap f = [pi] := by
  intro m
  induction m with
  | zero => intro h; exact absurd h (Nat.not_lt_zero i)
  | succ m ih =>
    intro him hi hnone
    rw [List.range_succ, List.filterMap_append]
    rcases Nat.lt_or_ge i m with h | h
    · rw [ih h hi fun n hn hne => hnone n (by omega) hne]
      have hm : f m = none := hnone m (by omega) (by omega)
      simp [hm]
    · have : i = m := by omega
      subst this
      rw [filterMap_range_none fun n hn => hnone n (by omega) (by omega)]
      simp [hi]

lemma filterMap_range_two {β : Type} {f : ℕ → Option β} {i j : ℕ} {pi pj : β} :
    ∀ {m : ℕ}, i < j → j < m → f i = some pi → f j = some pj →
      (∀ n < m, n ≠ i → n ≠ j → f n = none) →
      (List.range m).filterMap f = [pi, pj] := by
  intro m
  induction m with
  | zero => intro _ h; exact absurd h (Nat.not_lt_zero j)
  | succ m ih =>
    intro hij hjm hi hj hnone
    rw [List.range_succ, List.filterMap_append]
    rcases Nat.lt_or_ge j m with h | h
    · rw [ih hij h hi hj fun n hn h1 h2 => hnone n (by omega) h1 h2]
      have hm : f m = none := hnone m (by omega) (by omega) (by omega)
      simp [hm]
    · have : j = m := by omega
      subst this
      rw [filterMap_range_one hij hi fun n hn hne => hnone n (by omega) hne (by omega)]
      simp [hj]

lemma foldl_maxStep_spec :
    ∀ (l : List (ℕ × ℚ)) (acc p : ℕ × ℚ),
      (∀ q ∈ l, acc.1 < q.1) → l.Pairwise (fun a b => a.1 < b.1) →
      l.foldl maxStep (some acc) = some p →
      (p = acc ∨ p ∈ l) ∧ acc.2 ≤ p.2 ∧ (acc.2 = p.2 → acc.1 ≤ p.1) ∧
        ∀ q ∈ l, q.2 ≤ p.2 ∧ (q.2 = p.2 → q.1 ≤ p.1) := by
  intro l
  induction l with
  | nil =>
    intro acc p _ _ hp
    simp only [List.foldl_nil, Option.some.injEq] at hp
    subst hp
    exact ⟨Or.inl rfl, le_refl _, fun _ => le_refl _, by simp⟩
  | cons a t ih =>
    intro acc p hlt hpw hp
    rw [List.foldl_cons] at hp
    have hstep : maxStep (some acc) a = if acc.2 > a.2 then some acc else some a := rfl
    rcases List.pairwise_cons.mp hpw with ⟨hat, htpw⟩
    by_cases hcmp : acc.2 > a.2
    · rw [hstep, if_pos hcmp] at hp
      obtain ⟨hmem, hacc2, hacc1, hq⟩ :=
        ih acc p (fun q hq => hlt q (List.mem_cons_of_mem a hq)) htpw hp
      refine ⟨?_, hacc2, hacc1, ?_⟩
      · rcases hmem with h | h
        · exact Or.inl h
        · exact Or.inr (List.mem_cons_of_mem a h)
      · intro q hqmem
        rcases List.mem_cons.mp hqmem with rfl | hqt
        · exact ⟨le_of_lt (lt_of_lt_of_le hcmp hacc2),
            fun heq => absurd (lt_of_lt_of_le hcmp hacc2) (by rw [heq]; exact lt_irrefl _)⟩
        · exact hq q hqt
    · push_neg at hcmp
      rw [hstep, if_neg (not_lt.mpr hcmp)] at hp
      obtain ⟨hmem, ha2, ha1, hq⟩ := ih a p hat htpw hp
      have hpmem : p ∈ a :: t := by
        rcases hmem with h | h
        · exact h ▸ List.mem_cons_self a t
        · exact List.mem_cons_of_mem a h
      refine ⟨Or.inr hpmem, le_trans hcmp ha2, fun _ => le_of_lt (hlt p hpmem), ?_⟩
      intro q hqmem
      rcases List.mem_cons.mp hqmem with rfl | hqt
      · exact ⟨ha2, ha1⟩
      · exact hq q hqt

lemma maxByScore_spec (l : List (ℕ × ℚ)) (hpw : l.Pairwise fun a b => a.1 < b.1)
    (p : ℕ × ℚ) (hp : maxByScore l = some p) :
    p ∈ l ∧ ∀ q ∈ l, q.2 ≤ p.2 ∧ (q.2 = p.2 → q.1 ≤ p.1) := by
  cases l with
  | nil => exact absurd hp (by simp [maxByScore])
  | cons a t =>
    rw [maxByScore, List.foldl_cons] at hp
    have hstep : maxStep none a = some a := rfl
    rw [hstep] at hp
    rcases List.pairwise_cons.mp hpw with ⟨hat, htpw⟩
    obtain ⟨hmem, ha2, ha1, hq⟩ := foldl_maxStep_spec t a p hat htpw hp
    have hpmem : p ∈ a :: t := by
      rcases hmem with h | h
      · exact h ▸ List.mem_cons_self a t
      · exact List.mem_cons_of_mem a h
    refine ⟨hpmem, ?_⟩
    intro q hqmem
    rcases List.mem_cons.mp hqmem with rfl | hqt
    · exact ⟨ha2, ha1⟩
    · exact hq q hqt

lemma otsuScore_fst (histo : List ℕ) (n : ℕ) (p : ℕ × ℚ)
    (h : otsuScore histo n = some p) : p.1 = n := by
  simp only [otsuScore] at h
  split_ifs at h
  simp only [Option.some.injEq] at h
  rw [← h]

lemma otsuCandidates_pairwise (histo : List ℕ) :
    (otsuCandidates histo).Pairwise fun a b => a.1 < b.1 := by
  rw [otsuCandidates, List.pairwise_filterMap]
  refine List.Pairwise.imp ?_ (List.pairwise_lt_range 256)
  intro n m hlt b hb bm hbm
  rw [otsuScore_fst histo n b (Option.mem_def.mp hb),
    otsuScore_fst histo m bm (Option.mem_def.mp hbm)]
  exact hlt

set_option maxRecDepth 100000 in
lemma tieHisto_sums :
    sumL tieHisto 1 = 1 ∧ sumR tieHisto 1 = 1 ∧ mulsumL tieHisto 1 = 0 ∧
    mulsumR tieHisto 1 = 2 ∧ sumL tieHisto 2 = 1 ∧ sumR tieHisto 2 = 1 ∧
    mulsumL tieHisto 2 = 0 ∧ mulsumR tieHisto 2 = 2 := by decide

lemma tieHisto_score_one : otsuScore tieHisto 1 = some (1, 4) := by
  obtain ⟨h1, h2, h3, h4, -, -, -, -⟩ := tieHisto_sums
  simp only [otsuScore, h1, h2, h3, h4]
  norm_num [diff]

lemma tieHisto_score_two : otsuScore tieHisto 2 = some (2, 4) := by
  obtain ⟨-, -, -, -, h1, h2, h3, h4⟩ := tieHisto_sums
  simp only [otsuScore, h1, h2, h3, h4]
  norm_num [diff]

set_option maxRecDepth 100000 in
set_option maxHeartbeats 2000000 in
lemma tieHisto_summul_zero :
    ∀ n < 256, n ≠ 1 → n ≠ 2 → sumL tieHisto n * sumR tieHisto n = 0 := by decide

lemma tieHisto_candidates : otsuCandidates tieHisto = [(1, 4), (2, 4)] := by
  rw [otsuCandidates]
  refine filterMap_range_two (by norm_num) (by norm_num)
    tieHisto_score_one tieHisto_score_two fun n hn h1 h2 => ?_
  have := tieHisto_summul_zero n hn h1 h2
  simp [otsuScore, this]

lemma tieHisto_max : maxByScore (otsuCandidates tieHisto) = some (2, 4) := by
  rw [tieHisto_candidates, maxByScore, List.foldl_cons, List.foldl_cons, List.foldl_nil]
  have h1 : maxStep none (1, 4) = some (1, 4) := rfl
  rw [h1]
  have h2 : maxStep (some (1, (4:ℚ))) (2, 4) = some (2, 4) := by
    simp [maxStep]
  rw [h2]

/-- C2 counterexample: on `tieHisto` the splits 1 and 2 attain the same
maximal score 4, and the engine returns 2 — the LARGEST tied split, not
the smallest — because Rust's `Iterator::max_by` keeps the last maximal
element. -/
theorem c2_counterexample :
    otsuScore tieHisto 1 = some (1, 4) ∧ otsuScore tieHisto 2 = some (2, 4) ∧
    otsuThreshold tieHisto = some 2 ∧ (1 : ℕ) < 2 := by
  refine ⟨tieHisto_score_one, tieHisto_score_two, ?_, by norm_num⟩
  rw [otsuThreshold, tieHisto_max]
  rfl

/-- C2 (amended): the returned threshold is a candidate of maximal score,
and among equally maximal candidates the LAST one in ascending `n` order
(the largest such `n`) is returned (`Iterator::max_by` keeps the second
of two equal elements). -/
theorem c2_tie_resolution (histo : List ℕ) (p : ℕ × ℚ)
    (hp : maxByScore (otsuCandidates histo) = some p) :
    p ∈ otsuCandidates histo ∧
    (∀ q ∈ otsuCandidates histo, q.2 ≤ p.2) ∧
    (∀ q ∈ otsuCandidates histo, q.2 = p.2 → q.1 ≤ p.1) ∧
    otsuThreshold histo = some p.1 := by
  obtain ⟨hmem, hq⟩ := maxByScore_spec _ (otsuCandidates_pairwise histo) p hp
  exact ⟨hmem, fun q hqm => (hq q hqm).1, fun q hqm => (hq q hqm).2,
    by rw [otsuThreshold, hp]; rfl⟩

/-- Witness for C2 (amended) on `tieHisto`. -/
theorem c2_witness :
    ((2 : ℕ), (4 : ℚ)) ∈ otsuCandidates tieHisto ∧ otsuThreshold tieHisto = some 2 := by
  obtain ⟨h1, -, -, h4⟩ := c2_tie_resolution tieHisto (2, 4) tieHisto_max
  exact ⟨h1, h4⟩

/-! ## HSV helper lemmas -/

lemma chan_nonneg (x : ℕ) : 0 ≤ chan x := by
  unfold chan
  positivity

lemma chan_le_one {x : ℕ} (hx : x ≤ 255) : chan x ≤ 1 := by
  unfold chan
  rw [div_le_one (by norm_num)]
  exact_mod_cast hx

lemma vMin_le_chanR (r g b : ℕ) : vMin r g b ≤ chan r := min_le_left _ _

lemma vMin_le_chanG (r g b : ℕ) : vMin r g b ≤ chan g :=
  le_trans (min_le_right _ _) (min_le_left _ _)

lemma vMin_le_chanB (r g b : ℕ) : vMin r g b ≤ chan b :=
  le_trans (min_le_right _ _) (min_le_right _ _)

lemma chanR_le_vMax (r g b : ℕ) : chan r ≤ vMax r g b := le_max_left _ _

lemma chanG_le_vMax (r g b : ℕ) : chan g ≤ vMax r g b :=
  le_trans (le_max_left _ _) (le_max_right _ _)

lemma chanB_le_vMax (r g b : ℕ) : chan b ≤ vMax r g b :=
  le_trans (le_max_right _ _) (le_max_right _ _)

lemma vMin_nonneg (r g b : ℕ) : 0 ≤ vMin r g b :=
  le_min (chan_nonneg r) (le_min (chan_nonneg g) (chan_nonneg b))

lemma vMax_le_one {r g b : ℕ} (hr : r ≤ 255) (hg : g ≤ 255) (hb : b ≤ 255) :
    vMax r g b ≤ 1 :=
  max_le (chan_le_one hr) (max_le (chan_le_one hg) (chan_le_one hb))

lemma vMin_le_vMax (r g b : ℕ) : vMin r g b ≤ vMax r g b :=
  le_trans (vMin_le_chanR r g b) (chanR_le_vMax r g b)

lemma vMin_choice (r g b : ℕ) :
    vMin r g b = chan r ∨ vMin r g b = chan g ∨ vMin r g b = chan b := by
  rw [vMin]
  rcases min_choice (chan r) (min (chan g) (chan b)) with h | h
  · exact Or.inl h
  · rcases min_choice (chan g) (chan b) with h2 | h2
    · exact Or.inr (Or.inl (h.trans h2))
    · exact Or.inr (Or.inr (h.trans h2))

/-- C7: on any 8-bit RGB triple, `HSV::from_rgb` panics on none of its
`assert!`s and never reaches the trailing `unreachable!()`: it returns a
sample with `h ∈ [0,360)`, `s ∈ [0,1]`, `v ∈ [0,1]`; `s = 0` forces
`h = 0`, and for `s ≠ 0` some channel is the minimum and the hue comes
from the first matching minimum-channel case with exactly the spec's
formula (min=blue → `60*((g-r)/s)+60`, else min=red → `60*((b-g)/s)+180`,
else min=green → `60*((r-b)/s)+300`). -/
theorem c7_fromRgb_safe (r g b : ℕ) (hr : r ≤ 255) (hg : g ≤ 255) (hb : b ≤ 255) :
    ∃ hsv, fromRgb r g b = some hsv ∧
      hsv.v = vMax r g b ∧ hsv.s = vMax r g b - vMin r g b ∧
      0 ≤ hsv.h ∧ hsv.h < 360 ∧ 0 ≤ hsv.s ∧ hsv.s ≤ 1 ∧ 0 ≤ hsv.v ∧ hsv.v ≤ 1 ∧
      (hsv.s = 0 → hsv.h = 0) ∧
      (hsv.s ≠ 0 →
        (chan b = vMin r g b ∨ chan r = vMin r g b ∨ chan g = vMin r g b) ∧
        (chan b = vMin r g b → hsv.h = 60 * ((chan g - chan r) / hsv.s) + 60) ∧
        (chan b ≠ vMin r g b → chan r = vMin r g b →
          hsv.h = 60 * ((chan b - chan g) / hsv.s) + 180) ∧
        (chan b ≠ vMin r g b → chan r ≠ vMin r g b →
          chan g = vMin r g b ∧ hsv.h = 60 * ((chan r - chan b) / hsv.s) + 300)) := by
  have hm0 : 0 ≤ vMin r g b := vMin_nonneg r g b
  have hM1 : vMax r g b ≤ 1 := vMax_le_one hr hg hb
  have hmM : vMin r g b ≤ vMax r g b := vMin_le_vMax r g b
  have hv0 : 0 ≤ vMax r g b := le_trans hm0 hmM
  have hs0 : 0 ≤ vMax r g b - vMin r g b := by linarith
  have hs1 : vMax r g b - vMin r g b ≤ 1 := by linarith
  by_cases hs : vMax r g b - vMin r g b = 0
  · refine ⟨⟨0, vMax r g b - vMin r g b, vMax r g b⟩, ?_, rfl, rfl, le_refl 0,
      by norm_num, hs0, hs1, hv0, hM1, fun _ => rfl, fun hne => absurd hs hne⟩
    simp only [fromRgb]
    rw [if_pos hs, Option.some_bind, if_pos ⟨le_refl 0, by norm_num, hs0, hs1, hv0, hM1⟩]
  · have hspos : 0 < vMax r g b - vMin r g b := lt_of_le_of_ne hs0 (Ne.symm hs)
    by_cases hbm : chan b = vMin r g b
    · have hup : chan g - chan r ≤ vMax r g b - vMin r g b := by
        have := chanG_le_vMax r g b
        have := vMin_le_chanR r g b
        linarith
      have hlo : -(vMax r g b - vMin r g b) ≤ chan g - chan r := by
        have := chanR_le_vMax r g b
        have := vMin_le_chanG r g b
        linarith
      have ht1 : (chan g - chan r) / (vMax r g b - vMin r g b) ≤ 1 :=
        (div_le_one hspos).mpr hup
      have ht2 : -1 ≤ (chan g - chan r) / (vMax r g b - vMin r g b) :=
        (le_div_iff₀ hspos).mpr (by linarith)
      have hh0 : 0 ≤ 60 * ((chan g - chan r) / (vMax r g b - vMin r g b)) + 60 := by
        linarith
      have hh360 : 60 * ((chan g - chan r) / (vMax r g b - vMin r g b)) + 60 < 360 := by
        linarith
      refine ⟨⟨60 * ((chan g - chan r) / (vMax r g b - vMin r g b)) + 60,
        vMax r g b - vMin r g b, vMax r g b⟩, ?_, rfl, rfl, hh0, hh360, hs0, hs1, hv0, hM1,
        fun heq => absurd heq hs,
        fun _ => ⟨Or.inl hbm, fun _ => rfl, fun hc _ => absurd hbm hc,
          fun hc _ => absurd hbm hc⟩⟩
      simp only [fromRgb]
      rw [if_neg hs, if_pos hbm, Option.some_bind,
        if_pos ⟨hh0, hh360, hs0, hs1, hv0, hM1⟩]
    · by_cases hrm : chan r = vMin r g b
      · have hup : chan b - chan g ≤ vMax r g b - vMin r g b := by
          have := chanB_le_vMax r g b
          have := vMin_le_chanG r g b
          linarith
        have ht1 : (chan b - chan g) / (vMax r g b - vMin r g b) ≤ 1 :=
          (div_le_one hspos).mpr hup
        have ht2 : -1 ≤ (chan b - chan g) / (vMax r g b - vMin r g b) := by
          refine (le_div_iff₀ hspos).mpr ?_
          have := chanG_le_vMax r g b
          have := vMin_le_chanB r g b
          linarith
        have hh0 : 0 ≤ 60 * ((chan b - chan g) / (vMax r g b - vMin r g b)) + 180 := by
          linarith
        have hh360 : 60 * ((chan b - chan g) / (vMax r g b - vMin r g b)) + 180 < 360 := by
          linarith
        refine ⟨⟨60 * ((chan b - chan g) / (vMax r g b - vMin r g b)) + 180,
          vMax r g b - vMin r g b, vMax r g b⟩, ?_, rfl, rfl, hh0, hh360, hs0, hs1, hv0,
          hM1, fun heq => absurd heq hs,
          fun _ => ⟨Or.inr (Or.inl hrm), fun hc => absurd hc hbm, fun _ _ => rfl,
            fun _ hc => absurd hrm hc⟩⟩
        simp only [fromRgb]
        rw [if_neg hs, if_neg hbm, if_pos hrm, Option.some_bind,
          if_pos ⟨hh0, hh360, hs0, hs1, hv0, hM1⟩]
      · have hgm : chan g = vMin r g b := by
          rcases vMin_choice r g b with h | h | h
          · exact absurd h.symm hrm
          · exact h.symm
          · exact absurd h.symm hbm
        have hbstrict : vMin r g b < chan b :=
          lt_of_le_of_ne (vMin_le_chanB r g b) fun h => hbm h.symm
        have hup : chan r - chan b < vMax r g b - vMin r g b := by
          have := chanR_le_vMax r g b
          linarith
        have ht1 : (chan r - chan b) / (vMax r g b - vMin r g b) < 1 :=
          (div_lt_one hspos).mpr hup
        have ht2 : -1 ≤ (chan r - chan b) / (vMax r g b - vMin r g b) := by
          refine (le_div_iff₀ hspos).mpr ?_
          have := chanB_le_vMax r g b
          have := vMin_le_chanR r g b
          linarith
        have hh0 : 0 ≤ 60 * ((chan r - chan b) / (vMax r g b - vMin r g b)) + 300 := by
          linarith
        have hh360 : 60 * ((chan r - chan b) / (vMax r g b - vMin r g b)) + 300 < 360 := by
          linarith
        refine ⟨⟨60 * ((chan r - chan b) / (vMax r g b - vMin r g b)) + 300,
          vMax r g b - vMin r g b, vMax r g b⟩, ?_, rfl, rfl, hh0, hh360, hs0, hs1, hv0,
          hM1, fun heq => absurd heq hs,
          fun _ => ⟨Or.inr (Or.inr hgm), fun hc => absurd hc hbm,
            fun _ hc => absurd hc hrm, fun _ _ => ⟨hgm, rfl⟩⟩⟩
        simp only [fromRgb]
        rw [if_neg hs, if_neg hbm, if_neg hrm, if_pos hgm, Option.some_bind,
          if_pos ⟨hh0, hh360, hs0, hs1, hv0, hM1⟩]

/-- Witness for C7 at the triple (10, 200, 60), whose minimum channel is
red. -/
theorem c7_witness :
    ∃ hsv, fromRgb 10 200 60 = some hsv ∧
      0 ≤ hsv.h ∧ hsv.h < 360 ∧ 0 ≤ hsv.s ∧ hsv.s ≤ 1 ∧ 0 ≤ hsv.v ∧ hsv.v ≤ 1 := by
  obtain ⟨hsv, h1, -, -, h2, h3, h4, h5, h6, h7, -⟩ :=
    c7_fromRgb_safe 10 200 60 (by norm_num) (by norm_num) (by norm_num)
  exact ⟨hsv, h1, h2, h3, h4, h5, h6, h7⟩

/-! ## HSV round trip (C8) -/

lemma pixChannel {w : ℚ} {x : ℕ} (hx : x ≤ 255) (hw : w = chan x) :
    (if 0 ≤ w ∧ w ≤ 1 then some (⌊w * 255⌋.toNat) else none) = some x := by
  subst hw
  rw [if_pos ⟨chan_nonneg x, chan_le_one hx⟩]
  have hmul : chan x * 255 = (x : ℚ) := by
    unfold chan
    field_simp
  rw [hmul, Int.floor_natCast, Int.toNat_natCast]

lemma mapOpt_three {α β : Type} {f : α → Option β} {a₁ a₂ a₃ : α} {b₁ b₂ b₃ : β}
    (h₁ : f a₁ = some b₁) (h₂ : f a₂ = some b₂) (h₃ : f a₃ = some b₃) :
    mapOpt f [a₁, a₂, a₃] = some [b₁, b₂, b₃] := by
  simp [mapOpt, h₁, h₂, h₃]

lemma fmod_zero_two {t : ℚ} (h1 : 0 ≤ t) (h2 : t < 2) : fmod t 2 = t := by
  have hfl : ⌊t / 2⌋ = 0 := by
    rw [Int.floor_eq_iff]
    constructor
    · push_cast
      linarith
    · push_cast
      linarith
  rw [fmod, hfl]
  push_cast
  ring

lemma fmod_two_four {t : ℚ} (h1 : 2 ≤ t) (h2 : t < 4) : fmod t 2 = t - 2 := by
  have hfl : ⌊t / 2⌋ = 1 := by
    rw [Int.floor_eq_iff]
    constructor
    · push_cast
      linarith
    · push_cast
      linarith
  rw [fmod, hfl]
  push_cast
  ring

lemma fmod_four_six {t : ℚ} (h1 : 4 ≤ t) (h2 : t < 6) : fmod t 2 = t - 4 := by
  have hfl : ⌊t / 2⌋ = 2 := by
    rw [Int.floor_eq_iff]
    constructor
    · push_cast
      linarith
    · push_cast
      linarith
  rw [fmod, hfl]
  push_cast
  ring

lemma intoRgb_def (h s v : ℚ) :
    intoRgb ⟨h, s, v⟩ =
      (if h / 60 < 1 then some [s, s * (1 - |fmod (h / 60) 2 - 1|), 0]
       else if h / 60 < 2 then some [s * (1 - |fmod (h / 60) 2 - 1|), s, 0]
       else if h / 60 < 3 then some [0, s, s * (1 - |fmod (h / 60) 2 - 1|)]
       else if h / 60 < 4 then some [0, s * (1 - |fmod (h / 60) 2 - 1|), s]
       else if h / 60 < 5 then some [s * (1 - |fmod (h / 60) 2 - 1|), 0, s]
       else if h / 60 < 6 then some [s, 0, s * (1 - |fmod (h / 60) 2 - 1|)]
       else none).bind
        (mapOpt fun val =>
          if 0 ≤ val + (v - s) ∧ val + (v - s) ≤ 1 then
            some (⌊(val + (v - s)) * 255⌋.toNat)
          else none) := rfl

lemma fromRgb_eval_szero {r g b : ℕ} (hr : r ≤ 255) (hg : g ≤ 255) (hb : b ≤ 255)
    (hs : vMax r g b - vMin r g b = 0) :
    fromRgb r g b = some ⟨0, vMax r g b - vMin r g b, vMax r g b⟩ := by
  have hm0 := vMin_nonneg r g b
  have hM1 := vMax_le_one hr hg hb
  have hmM := vMin_le_vMax r g b
  simp only [fromRgb]
  rw [if_pos hs, Option.some_bind,
    if_pos ⟨le_refl 0, by norm_num, by linarith, by linarith, by linarith, hM1⟩]

lemma fromRgb_eval_blue {r g b : ℕ} (hr : r ≤ 255) (hg : g ≤ 255) (hb : b ≤ 255)
    (hs : vMax r g b - vMin r g b ≠ 0) (hbm : chan b = vMin r g b) :
    fromRgb r g b = some
      ⟨60 * ((chan g - chan r) / (vMax r g b - vMin r g b)) + 60,
        vMax r g b - vMin r g b, vMax r g b⟩ := by
  have hm0 := vMin_nonneg r g b
  have hM1 := vMax_le_one hr hg hb
  have hmM := vMin_le_vMax r g b
  have hspos : 0 < vMax r g b - vMin r g b :=
    lt_of_le_of_ne (by linarith) (Ne.symm hs)
  have ht1 : (chan g - chan r) / (vMax r g b - vMin r g b) ≤ 1 :=
    (div_le_one hspos).mpr (by linarith [chanG_le_vMax r g b, vMin_le_chanR r g b])
  have ht2 : -1 ≤ (chan g - chan r) / (vMax r g b - vMin r g b) :=
    (le_div_iff₀ hspos).mpr (by linarith [chanR_le_vMax r g b, vMin_le_chanG r g b])
  simp only [fromRgb]
  rw [if_neg hs, if_pos hbm, Option.some_bind,
    if_pos ⟨by linarith, by linarith, by linarith, by linarith, by linarith, hM1⟩]

lemma fromRgb_eval_red {r g b : ℕ} (hr : r ≤ 255) (hg : g ≤ 255) (hb : b ≤ 255)
    (hs : vMax r g b - vMin r g b ≠ 0) (hbm : chan b ≠ vMin r g b)
    (hrm : chan r = vMin r g b) :
    fromRgb r g b = some
      ⟨60 * ((chan b - chan g) / (vMax r g b - vMin r g b)) + 180,
        vMax r g b - vMin r g b, vMax r g b⟩ := by
  have hm0 := vMin_nonneg r g b
  have hM1 := vMax_le_one hr hg hb
  have hmM := vMin_le_vMax r g b
  have hspos : 0 < vMax r g b - vMin r g b :=
    lt_of_le_of_ne (by linarith) (Ne.symm hs)
  have ht1 : (chan b - chan g) / (vMax r g b - vMin r g b) ≤ 1 :=
    (div_le_one hspos).mpr (by linarith [chanB_le_vMax r g b, vMin_le_chanG r g b])
  have ht2 : -1 ≤ (chan b - chan g) / (vMax r g b - vMin r g b) :=
    (le_div_iff₀ hspos).mpr (by linarith [chanG_le_vMax r g b, vMin_le_chanB r g b])
  simp only [fromRgb]
  rw [if_neg hs, if_neg hbm, if_pos hrm, Option.some_bind,
    if_pos ⟨by linarith, by linarith, by linarith, by linarith, by linarith, hM1⟩]

lemma fromRgb_eval_green {r g b : ℕ} (hr : r ≤ 255) (hg : g ≤ 255) (hb : b ≤ 255)
    (hs : vMax r g b - vMin r g b ≠ 0) (hbm : chan b ≠ vMin r g b)
    (hrm : chan r ≠ vMin r g b) :
    fromRgb r g b = some
      ⟨60 * ((chan r - chan b) / (vMax r g b - vMin r g b)) + 300,
        vMax r g b - vMin r g b, vMax r g b⟩ := by
  have hm0 := vMin_nonneg r g b
  have hM1 := vMax_le_one hr hg hb
  have hmM := vMin_le_vMax r g b
  have hspos : 0 < vMax r g b - vMin r g b :=
    lt_of_le_of_ne (by linarith) (Ne.symm hs)
  have hgm : chan g = vMin r g b := by
    rcases vMin_choice r g b with h | h | h
    · exact absurd h.symm hrm
    · exact h.symm
    · exact absurd h.symm hbm
  have hbstrict : vMin r g b < chan b :=
    lt_of_le_of_ne (vMin_le_chanB r g b) fun h => hbm h.symm
  have ht1 : (chan r - chan b) / (vMax r g b - vMin r g b) < 1 :=
    (div_lt_one hspos).mpr (by linarith [chanR_le_vMax r g b])
  have ht2 : -1 ≤ (chan r - chan b) / (vMax r g b - vMin r g b) :=
    (le_div_iff₀ hspos).mpr (by linarith [chanB_le_vMax r g b, vMin_le_chanR r g b])
  simp only [fromRgb]
  rw [if_neg hs, if_neg hbm, if_neg hrm, if_pos hgm, Option.some_bind,
    if_pos ⟨by linarith, by linarith, by linarith, by linarith, by linarith, hM1⟩]

lemma pixel_roundtrip (r g b : ℕ) (hr : r ≤ 255) (hg : g ≤ 255) (hb : b ≤ 255) :
    ∃ hsv, fromRgb r g b = some hsv ∧ intoRgb hsv = some [r, g, b] := by
  have hm0 := vMin_nonneg r g b
  have hM1 := vMax_le_one hr hg hb
  have hmM := vMin_le_vMax r g b
  by_cases hs : vMax r g b - vMin r g b = 0
  · -- degenerate: all three channels equal
    have hcr : chan r = vMin r g b :=
      le_antisymm (by linarith [chanR_le_vMax r g b]) (vMin_le_chanR r g b)
    have hcg : chan g = vMin r g b :=
      le_antisymm (by linarith [chanG_le_vMax r g b]) (vMin_le_chanG r g b)
    have hcb : chan b = vMin r g b :=
      le_antisymm (by linarith [chanB_le_vMax r g b]) (vMin_le_chanB r g b)
    refine ⟨_, fromRgb_eval_szero hr hg hb hs, ?_⟩
    rw [intoRgb_def]
    rw [show (0 : ℚ) / 60 = 0 from by norm_num]
    rw [if_pos (show (0 : ℚ) < 1 from by norm_num)]
    rw [Option.some_bind]
    rw [fmod_zero_two (le_refl 0) (by norm_num)]
    rw [show |(0 : ℚ) - 1| = 1 from by norm_num [abs_of_nonpos]]
    refine mapOpt_three (pixChannel hr ?_) (pixChannel hg ?_) (pixChannel hb ?_)
    · linear_combination hs + hcr.symm
    · linear_combination hcg.symm
    · linear_combination hcb.symm
  · have hspos : 0 < vMax r g b - vMin r g b :=
      lt_of_le_of_ne (by linarith) (Ne.symm hs)
    have hsd : ∀ d : ℚ, (vMax r g b - vMin r g b) * (d / (vMax r g b - vMin r g b)) = d :=
      fun d => by
        rw [mul_comm]
        exact div_mul_cancel₀ _ hs
    by_cases hbm : chan b = vMin r g b
    · -- blue is the minimum
      refine ⟨_, fromRgb_eval_blue hr hg hb hs hbm, ?_⟩
      rw [intoRgb_def]
      rw [show (60 * ((chan g - chan r) / (vMax r g b - vMin r g b)) + 60) / 60
          = (chan g - chan r) / (vMax r g b - vMin r g b) + 1 from by ring]
      by_cases hgr : chan g < chan r
      · -- sector 0
        have ht0 : (chan g - chan r) / (vMax r g b - vMin r g b) < 0 :=
          div_neg_of_neg_of_pos (by linarith) hspos
        have htm1 : -1 ≤ (chan g - chan r) / (vMax r g b - vMin r g b) :=
          (le_div_iff₀ hspos).mpr (by linarith [chanR_le_vMax r g b, vMin_le_chanG r g b])
        have hvr : vMax r g b = chan r := by
          rw [vMax, max_eq_left
            (max_le (le_of_lt hgr) (le_trans (le_of_eq hbm) (vMin_le_chanR r g b)))]
        rw [if_pos (by linarith :
          (chan g - chan r) / (vMax r g b - vMin r g b) + 1 < 1)]
        rw [Option.some_bind]
        rw [fmod_zero_two (by linarith) (by linarith)]
        have habs : |(chan g - chan r) / (vMax r g b - vMin r g b) + 1 - 1|
            = -((chan g - chan r) / (vMax r g b - vMin r g b)) := by
          rw [show (chan g - chan r) / (vMax r g b - vMin r g b) + 1 - 1
              = (chan g - chan r) / (vMax r g b - vMin r g b) from by ring]
          exact abs_of_neg ht0
        rw [habs]
        refine mapOpt_three (pixChannel hr ?_) (pixChannel hg ?_) (pixChannel hb ?_)
        · linear_combination hvr
        · linear_combination hsd (chan g - chan r) + hvr
        · linear_combination hbm.symm
      · push_neg at hgr
        by_cases htop : chan g - chan r = vMax r g b - vMin r g b
        · -- sector boundary h' = 2
          have hteq : (chan g - chan r) / (vMax r g b - vMin r g b) = 1 := by
            rw [htop]
            exact div_self hs
          have hgM : chan g = vMax r g b :=
            le_antisymm (chanG_le_vMax r g b) (by linarith [vMin_le_chanR r g b])
          have hrm2 : chan r = vMin r g b :=
            le_antisymm (by linarith [chanG_le_vMax r g b]) (vMin_le_chanR r g b)
          rw [hteq]
          rw [if_neg (by norm_num : ¬ ((1 : ℚ) + 1 < 1))]
          rw [if_neg (by norm_num : ¬ ((1 : ℚ) + 1 < 2))]
          rw [if_pos (by norm_num : ((1 : ℚ) + 1 < 3))]
          rw [Option.some_bind]
          rw [fmod_two_four (by norm_num) (by norm_num)]
          rw [show |(1 : ℚ) + 1 - 2 - 1| = 1 from by norm_num]
          refine mapOpt_three (pixChannel hr ?_) (pixChannel hg ?_) (pixChannel hb ?_)
          · linear_combination hrm2.symm
          · linear_combination hgM.symm
          · linear_combination (1 - (1 - 1)) * hbm.symm
        · -- sector 1
          have hup : chan g - chan r < vMax r g b - vMin r g b :=
            lt_of_le_of_ne
              (by linarith [chanG_le_vMax r g b, vMin_le_chanR r g b]) htop
          have ht0 : 0 ≤ (chan g - chan r) / (vMax r g b - vMin r g b) :=
            div_nonneg (by linarith) (le_of_lt hspos)
          have ht1 : (chan g - chan r) / (vMax r g b - vMin r g b) < 1 :=
            (div_lt_one hspos).mpr hup
          have hvg : vMax r g b = chan g := by
            rw [vMax, max_eq_left (le_trans (le_of_eq hbm) (vMin_le_chanG r g b)),
              max_eq_right hgr]
          rw [if_neg (by linarith :
            ¬ ((chan g - chan r) / (vMax r g b - vMin r g b) + 1 < 1))]
          rw [if_pos (by linarith :
            (chan g - chan r) / (vMax r g b - vMin r g b) + 1 < 2)]
          rw [Option.some_bind]
          rw [fmod_zero_two (by linarith) (by linarith)]
          have habs : |(chan g - chan r) / (vMax r g b - vMin r g b) + 1 - 1|
              = (chan g - chan r) / (vMax r g b - vMin r g b) := by
            rw [show (chan g - chan r) / (vMax r g b - vMin r g b) + 1 - 1
                = (chan g - chan r) / (vMax r g b - vMin r g b) from by ring]
            exact abs_of_nonneg ht0
          rw [habs]
          refine mapOpt_three (pixChannel hr ?_) (pixChannel hg ?_) (pixChannel hb ?_)
          · linear_combination -hsd (chan g - chan r) + hvg
          · linear_combination hvg
          · linear_combination hbm.symm
    · by_cases hrm : chan r = vMin r g b
      · -- red is the minimum
        refine ⟨_, fromRgb_eval_red hr hg hb hs hbm hrm, ?_⟩
        rw [intoRgb_def]
        rw [show (60 * ((chan b - chan g) / (vMax r g b - vMin r g b)) + 180) / 60
            = (chan b - chan g) / (vMax r g b - vMin r g b) + 3 from by ring]
        have htm1 : -1 < (chan b - chan g) / (vMax r g b - vMin r g b) := by
          have hbstrict : vMin r g b < chan b :=
            lt_of_le_of_ne (vMin_le_chanB r g b) fun h => hbm h.symm
          refine (lt_div_iff₀ hspos).mpr ?_
          linarith [chanG_le_vMax r g b]
        by_cases hbg : chan b < chan g
        · -- sector 2
          have ht0 : (chan b - chan g) / (vMax r g b - vMin r g b) < 0 :=
            div_neg_of_neg_of_pos (by linarith) hspos
          have hvg : vMax r g b = chan g := by
            rw [vMax, max_eq_left (le_of_lt hbg),
              max_eq_right (le_trans (le_of_eq hrm) (vMin_le_chanG r g b))]
          rw [if_neg (by linarith :
            ¬ ((chan b - chan g) / (vMax r g b - vMin r g b) + 3 < 1))]
          rw [if_neg (by linarith :
            ¬ ((chan b - chan g) / (vMax r g b - vMin r g b) + 3 < 2))]
          rw [if_pos (by linarith :
            (chan b - chan g) / (vMax r g b - vMin r g b) + 3 < 3)]
          rw [Option.some_bind]
          rw [fmod_two_four (by linarith) (by linarith)]
          have habs : |(chan b - chan g) / (vMax r g b - vMin r g b) + 3 - 2 - 1|
              = -((chan b - chan g) / (vMax r g b - vMin r g b)) := by
            rw [show (chan b - chan g) / (vMax r g b - vMin r g b) + 3 - 2 - 1
                = (chan b - chan g) / (vMax r g b - vMin r g b) from by ring]
            exact abs_of_neg ht0
          rw [habs]
          refine mapOpt_three (pixChannel hr ?_) (pixChannel hg ?_) (pixChannel hb ?_)
          · linear_combination hrm.symm
          · linear_combination hvg
          · linear_combination hsd (chan b - chan g) + hvg
        · push_neg at hbg
          by_cases htop : chan b - chan g = vMax r g b - vMin r g b
          · -- sector boundary h' = 4
            have hteq : (chan b - chan g) / (vMax r g b - vMin r g b) = 1 := by
              rw [htop]
              exact div_self hs
            have hbM : chan b = vMax r g b :=
              le_antisymm (chanB_le_vMax r g b) (by linarith [vMin_le_chanG r g b])
            have hgm2 : chan g = vMin r g b :=
              le_antisymm (by linarith [chanB_le_vMax r g b]) (vMin_le_chanG r g b)
            rw [hteq]
            rw [if_neg (by norm_num : ¬ ((1 : ℚ) + 3 < 1))]
            rw [if_neg (by norm_num : ¬ ((1 : ℚ) + 3 < 2))]
            rw [if_neg (by norm_num : ¬ ((1 : ℚ) + 3 < 3))]
            rw [if_neg (by norm_num : ¬ ((1 : ℚ) + 3 < 4))]
            rw [if_pos (by norm_num : ((1 : ℚ) + 3 < 5))]
            rw [Option.some_bind]
            rw [fmod_four_six (by norm_num) (by norm_num)]
            rw [show |(1 : ℚ) + 3 - 4 - 1| = 1 from by norm_num]
            refine mapOpt_three (pixChannel hr ?_) (pixChannel hg ?_) (pixChannel hb ?_)
            · linear_combination (1 - (1 - 1)) * hrm.symm
            · linear_combination hgm2.symm
            · linear_combination hbM.symm
          · -- sector 3
            have hup : chan b - chan g < vMax r g b - vMin r g b :=
              lt_of_le_of_ne
                (by linarith [chanB_le_vMax r g b, vMin_le_chanG r g b]) htop
            have ht0 : 0 ≤ (chan b - chan g) / (vMax r g b - vMin r g b) :=
              div_nonneg (by linarith) (le_of_lt hspos)
            have ht1 : (chan b - chan g) / (vMax r g b - vMin r g b) < 1 :=
              (div_lt_one hspos).mpr hup
            have hvb : vMax r g b = chan b := by
              rw [vMax, max_eq_right hbg,
                max_eq_right (le_trans (le_of_eq hrm) (vMin_le_chanB r g b))]
            rw [if_neg (by linarith :
              ¬ ((chan b - chan g) / (vMax r g b - vMin r g b) + 3 < 1))]
            rw [if_neg (by linarith :
              ¬ ((chan b - chan g) / (vMax r g b - vMin r g b) + 3 < 2))]
            rw [if_neg (by linarith :
              ¬ ((chan b - chan g) / (vMax r g b - vMin r g b) + 3 < 3))]
            rw [if_pos (by linarith :
              (chan b - chan g) / (vMax r g b - vMin r g b) + 3 < 4)]
            rw [Option.some_bind]
            rw [fmod_two_four (by linarith) (by linarith)]
            have habs : |(chan b - chan g) / (vMax r g b - vMin r g b) + 3 - 2 - 1|
                = (chan b - chan g) / (vMax r g b - vMin r g b) := by
              rw [show (chan b - chan g) / (vMax r g b - vMin r g b) + 3 - 2 - 1
                  = (chan b - chan g) / (vMax r g b - vMin r g b) from by ring]
              exact abs_of_nonneg ht0
            rw [habs]
            refine mapOpt_three (pixChannel hr ?_) (pixChannel hg ?_) (pixChannel hb ?_)
            · linear_combination hrm.symm
            · linear_combination -hsd (chan b - chan g) + hvb
            · linear_combination hvb
      · -- green is the minimum
        have hgm : chan g = vMin r g b := by
          rcases vMin_choice r g b with h | h | h
          · exact absurd h.symm hrm
          · exact h.symm
          · exact absurd h.symm hbm
        have hbstrict : vMin r g b < chan b :=
          lt_of_le_of_ne (vMin_le_chanB r g b) fun h => hbm h.symm
        have hrstrict : vMin r g b < chan r :=
          lt_of_le_of_ne (vMin_le_chanR r g b) fun h => hrm h.symm
        refine ⟨_, fromRgb_eval_green hr hg hb hs hbm hrm, ?_⟩
        rw [intoRgb_def]
        rw [show (60 * ((chan r - chan b) / (vMax r g b - vMin r g b)) + 300) / 60
            = (chan r - chan b) / (vMax r g b - vMin r g b) + 5 from by ring]
        have htm1 : -1 < (chan r - chan b) / (vMax r g b - vMin r g b) := by
          refine (lt_div_iff₀ hspos).mpr ?_
          linarith [chanB_le_vMax r g b]
        have ht1 : (chan r - chan b) / (vMax r g b - vMin r g b) < 1 :=
          (div_lt_one hspos).mpr (by linarith [chanR_le_vMax r g b])
        by_cases hrb : chan r < chan b
        · -- sector 4
          have ht0 : (chan r - chan b) / (vMax r g b - vMin r g b) < 0 :=
            div_neg_of_neg_of_pos (by linarith) hspos
          have hvb : vMax r g b = chan b := by
            rw [vMax, max_eq_right (le_trans (le_of_eq hgm) (vMin_le_chanB r g b)),
              max_eq_right (le_of_lt hrb)]
          rw [if_neg (by linarith :
            ¬ ((chan r - chan b) / (vMax r g b - vMin r g b) + 5 < 1))]
          rw [if_neg (by linarith :
            ¬ ((chan r - chan b) / (vMax r g b - vMin r g b) + 5 < 2))]
          rw [if_neg (by linarith :
            ¬ ((chan r - chan b) / (vMax r g b - vMin r g b) + 5 < 3))]
          rw [if_neg (by linarith :
            ¬ ((chan r - chan b) / (vMax r g b - vMin r g b) + 5 < 4))]
          rw [if_pos (by linarith :
            (chan r - chan b) / (vMax r g b - vMin r g b) + 5 < 5)]
          rw [Option.some_bind]
          rw [fmod_four_six (by linarith) (by linarith)]
          have habs : |(chan r - chan b) / (vMax r g b - vMin r g b) + 5 - 4 - 1|
              = -((chan r - chan b) / (vMax r g b - vMin r g b)) := by
            rw [show (chan r - chan b) / (vMax r g b - vMin r g b) + 5 - 4 - 1
                = (chan r - chan b) / (vMax r g b - vMin r g b) from by ring]
            exact abs_of_neg ht0
          rw [habs]
          refine mapOpt_three (pixChannel hr ?_) (pixChannel hg ?_) (pixChannel hb ?_)
          · linear_combination hsd (chan r - chan b) + hvb
          · linear_combination hgm.symm
          · linear_combination hvb
        · -- sector 5
          push_neg at hrb
          have ht0 : 0 ≤ (chan r - chan b) / (vMax r g b - vMin r g b) :=
            div_nonneg (by linarith) (le_of_lt hspos)
          have hvr : vMax r g b = chan r := by
            rw [vMax, max_eq_left
              (max_le (by linarith [vMin_le_chanB r g b]) hrb)]
          rw [if_neg (by linarith :
            ¬ ((chan r - chan b) / (vMax r g b - vMin r g b) + 5 < 1))]
          rw [if_neg (by linarith :
            ¬ ((chan r - chan b) / (vMax r g b - vMin r g b) + 5 < 2))]
          rw [if_neg (by linarith :
            ¬ ((chan r - chan b) / (vMax r g b - vMin r g b) + 5 < 3))]
          rw [if_neg (by linarith :
            ¬ ((chan r - chan b) / (vMax r g b - vMin r g b) + 5 < 4))]
          rw [if_neg (by linarith :
            ¬ ((chan r - chan b) / (vMax r g b - vMin r g b) + 5 < 5))]
          rw [if_pos (by linarith :
            (chan r - chan b) / (vMax r g b - vMin r g b) + 5 < 6)]
          rw [Option.some_bind]
          rw [fmod_four_six (by linarith) (by linarith)]
          have habs : |(chan r - chan b) / (vMax r g b - vMin r g b) + 5 - 4 - 1|
              = (chan r - chan b) / (vMax r g b - vMin r g b) := by
            rw [show (chan r - chan b) / (vMax r g b - vMin r g b) + 5 - 4 - 1
                = (chan r - chan b) / (vMax r g b - vMin r g b) from by ring]
            exact abs_of_nonneg ht0
          rw [habs]
          refine mapOpt_three (pixChannel hr ?_) (pixChannel hg ?_) (pixChannel hb ?_)
          · linear_combination hvr
          · linear_combination hgm.symm
          · linear_combination -hsd (chan r - chan b) + hvr


lemma chunks_roundtrip :
    ∀ l : List ℕ, (∀ x ∈ l, x ≤ 255) → l.length % 3 = 0 →
      ∃ hsvs, rgbToHsvChunks l = some hsvs ∧ hsvToRgb hsvs = some l := by
  refine tripleInduction ?_ ?_ ?_ ?_
  · intro _ _
    exact ⟨[], rfl, rfl⟩
  · intro a hv h
    simp at h
  · intro a b hv h
    simp at h
  · intro r g b rest ih hv hlen
    have hrest : rest.length % 3 = 0 := by
      simp only [List.length_cons] at hlen
      omega
    obtain ⟨hsvs, h1, h2⟩ := ih (fun x hx => hv x (by simp [hx])) hrest
    obtain ⟨hsv, hp1, hp2⟩ :=
      pixel_roundtrip r g b (hv r (by simp)) (hv g (by simp)) (hv b (by simp))
    refine ⟨hsv :: hsvs, by simp [rgbToHsvChunks, hp1, h1], ?_⟩
    rw [hsvToRgb] at h2 ⊢
    cases hmo : mapOpt intoRgb hsvs with
    | none =>
      rw [hmo] at h2
      simp at h2
    | some bss =>
      rw [hmo] at h2
      simp only [Option.map_some'] at h2
      have hfl : bss.flatten = rest := by
        injection h2
      have hcons : mapOpt intoRgb (hsv :: hsvs) = some ([r, g, b] :: bss) := by
        simp [mapOpt, hp2, hmo]
      rw [hcons]
      simp [hfl]

/-- C8: for every RGB byte buffer whose length is a multiple of 3,
`rgb_to_hsv` followed by `hsv_to_rgb` succeeds (every per-pixel assertion
holds: the hue stays in a sector of `[0,6)` so the `unreachable!` arm is
dead, and every channel value after the `+ (v - s)` correction lies in
`[0,1]`), returns a buffer of the same length, and every output byte
differs from the original by at most 1 — over the exact-rational model
the reconstruction is in fact bit-exact (`out = l`). -/
theorem c8_hsv_roundtrip (l : List ℕ) (hv : ∀ x ∈ l, x ≤ 255)
    (hlen : l.length % 3 = 0) :
    ∃ out, (rgbToHsv l).bind hsvToRgb = some out ∧ out = l ∧
      out.length = l.length ∧ ∀ i, diff (out.getD i 0) (l.getD i 0) ≤ 1 := by
  obtain ⟨hsvs, h1, h2⟩ := chunks_roundtrip l hv hlen
  refine ⟨l, ?_, rfl, rfl, fun i => ?_⟩
  · rw [rgbToHsv, if_pos hlen, h1, Option.some_bind, h2]
  · simp [diff]

/-- Witness for C8 at the 1-pixel pure-red buffer. -/
theorem c8_witness :
    ∃ out, (rgbToHsv [255, 0, 0]).bind hsvToRgb = some out ∧ out = [255, 0, 0] := by
  obtain ⟨out, h1, h2, -, -⟩ :=
    c8_hsv_roundtrip [255, 0, 0] (by decide) (by decide)
  exact ⟨out, h1, h2⟩


end Gasyori
